import Mathlib

/-!
Verification of the peg-solitaire A* solver
(`Tarea-1/peg_solitaire_astar/board.py` and `search.py`).

States are bit masks over the 33 valid cells of the 7×7 cross board, exactly
as in the Python source.  Python's arbitrary-precision nonnegative ints are
embedded as `Nat`; `mask & ~(1 << b)` on a nonnegative int clears bit `b`,
which over `Nat` is written `mask ^^^ (mask &&& (1 <<< b))`.  Python's
`float('inf')` heuristic value is embedded as `⊤ : ℕ∞` (addition and order on
`ℕ∞` agree with IEEE behaviour of `inf` on the operations the code performs).
Wall-clock readings are abstracted as an oracle `Nat → Nat` giving the elapsed
time observed at each iteration of the search loop.
-/

namespace PegAstar

/-- Board side (`board.N = 7`). -/
def boardN : Int := 7

/-- `board.CENTER = (3, 3)`. -/
def CENTER : Int × Int := (3, 3)

/-- `board.is_valid_cell`. -/
def is_valid_cell (r c : Int) : Bool :=
  if ¬ (0 ≤ r ∧ r < boardN ∧ 0 ≤ c ∧ c < boardN) then false
  else if r < 2 ∧ (c < 2 ∨ c > 4) then false
  else if r > 4 ∧ (c < 2 ∨ c > 4) then false
  else true

/-- `board.IDX_TO_POS`: the valid cells in row-major order. -/
def IDX_TO_POS : List (Int × Int) :=
  (List.range 7).flatMap (fun r =>
    (List.range 7).filterMap (fun c =>
      if is_valid_cell r c then some ((r : Int), (c : Int)) else none))

/-- `board.POS_TO_IDX`: position of a valid cell in `IDX_TO_POS`
(the Python dict maps each valid cell to its index in that list). -/
def POS_TO_IDX (p : Int × Int) : Nat := IDX_TO_POS.indexOf p

/-- `board.CENTER_IDX`. -/
def CENTER_IDX : Nat := POS_TO_IDX CENTER

/-- The four cardinal directions used throughout `board.py` / `search.py`. -/
def DIRS : List (Int × Int) := [(-1, 0), (1, 0), (0, -1), (0, 1)]

/-- `board.VALID_MOVES`: all `(src, over, dst)` index triples such that the
jumped-over and destination cells are valid. -/
def VALID_MOVES : List (Nat × Nat × Nat) :=
  IDX_TO_POS.enum.flatMap (fun si =>
    DIRS.filterMap (fun d =>
      let over_r := si.2.1 + d.1
      let over_c := si.2.2 + d.2
      let dst_r := si.2.1 + 2 * d.1
      let dst_c := si.2.2 + 2 * d.2
      if is_valid_cell over_r over_c && is_valid_cell dst_r dst_c then
        some (si.1, POS_TO_IDX (over_r, over_c), POS_TO_IDX (dst_r, dst_c))
      else none))

/-- `board.bit_clear`: Python `mask & ~(1 << bit)` on a nonnegative int,
written over `Nat` as xor-ing away the selected bit. -/
def bit_clear (mask bit : Nat) : Nat := mask ^^^ (mask &&& (1 <<< bit))

/-- `board.bit_set`: `mask | (1 << bit)`. -/
def bit_set (mask bit : Nat) : Nat := mask ||| (1 <<< bit)

/-- `board.initial_state`: every valid cell occupied except the center. -/
def initial_state : Nat := bit_clear ((1 <<< IDX_TO_POS.length) - 1) CENTER_IDX

/-- `board.is_goal`: exactly one peg, at the center. -/
def is_goal (state : Nat) : Bool := state == (1 <<< CENTER_IDX)

/-- Structural helper computing the binary digit sum of `n`; the first
argument is fuel, and any fuel `≥ n` yields the true bit count. -/
def popcountFuel : Nat → Nat → Nat
  | 0, _ => 0
  | _ + 1, 0 => 0
  | fuel + 1, n + 1 => (n + 1) % 2 + popcountFuel fuel ((n + 1) / 2)

/-- `board.popcount` (Python `int.bit_count`): number of set bits. -/
def popcount (state : Nat) : Nat := popcountFuel state state

/-- `board.get_valid_moves_fast`: the members of `VALID_MOVES` whose source and
jumped-over bits are set and whose destination bit is clear
(Python tests `state & (1 << i)` for truthiness). -/
def get_valid_moves_fast (state : Nat) : List (Nat × Nat × Nat) :=
  VALID_MOVES.filter (fun m =>
    state &&& (1 <<< m.1) != 0 && (state &&& (1 <<< m.2.1) != 0) &&
      (state &&& (1 <<< m.2.2) == 0))

/-- `board.apply_move_fast`:
`(state & ~(1 << src) & ~(1 << over)) | (1 << dst)`. -/
def apply_move_fast (state : Nat) (move : Nat × Nat × Nat) : Nat :=
  bit_clear (bit_clear state move.1) move.2.1 ||| (1 <<< move.2.2)

/-- The eight D4 coordinate maps of `search.apply_symmetry`
(`N - 1 = 6`); index `≥ 7` falls into the Python `else` branch. -/
def transform (sym : Nat) (p : Int × Int) : Int × Int :=
  match sym with
  | 0 => (p.1, p.2)
  | 1 => (p.2, 6 - p.1)
  | 2 => (6 - p.1, 6 - p.2)
  | 3 => (6 - p.2, p.1)
  | 4 => (p.1, 6 - p.2)
  | 5 => (6 - p.1, p.2)
  | 6 => (p.2, p.1)
  | _ => (6 - p.2, 6 - p.1)

/-- `search.apply_symmetry`: collect occupied positions, transform them,
keep the valid ones, and rebuild the mask. -/
def apply_symmetry (state : Nat) (sym : Nat) : Nat :=
  let pieces := (List.range IDX_TO_POS.length).filterMap (fun i =>
    if state.testBit i then some (IDX_TO_POS.getD i (0, 0)) else none)
  let new_pieces := pieces.filterMap (fun p =>
    let q := transform sym p
    if is_valid_cell q.1 q.2 then some q else none)
  new_pieces.foldl (fun ns q =>
    if IDX_TO_POS.contains q then ns ||| (1 <<< POS_TO_IDX q) else ns) 0

/-- `search.canonicalize`: smallest value among the state and its eight
symmetric images. -/
def canonicalize (state : Nat) : Nat :=
  (List.range 8).foldl (fun canonical sym =>
    let candidate := apply_symmetry state sym
    if candidate < canonical then candidate else canonical) state

/-- `search.manhattan_to_center`. -/
def manhattan_to_center (idx : Nat) : Nat :=
  let p := IDX_TO_POS.getD idx (0, 0)
  (p.1 - 3).natAbs + (p.2 - 3).natAbs

/-- The orthogonal adjacency lists rebuilt inside
`search.connected_components` (same construction as `board.ADJ`). -/
def adjacency : List (List Nat) :=
  IDX_TO_POS.map (fun p =>
    DIRS.filterMap (fun d =>
      let q := (p.1 + d.1, p.2 + d.2)
      if is_valid_cell q.1 q.2 then some (POS_TO_IDX q) else none))

/-- The BFS of `search.connected_components`.  Every cell is enqueued at most
once (it is marked visited when enqueued), so fuel `34 ≥ 33` never runs out
before the queue empties. -/
def bfs_loop (state : Nat) : Nat → List Bool → List Nat → List Bool
  | _, visited, [] => visited
  | 0, visited, _ :: _ => visited
  | fuel + 1, visited, current :: queue =>
    let step := (adjacency.getD current []).foldl
      (fun vq neighbor =>
        if state.testBit neighbor && !(vq.1.getD neighbor false) then
          (vq.1.set neighbor true, vq.2 ++ [neighbor])
        else vq) (visited, queue)
    bfs_loop state fuel step.1 step.2

/-- `search.connected_components`: number of orthogonally connected groups of
pegs. -/
def connected_components (state : Nat) : Nat :=
  ((List.range IDX_TO_POS.length).foldl (fun acc i =>
    if state.testBit i && !(acc.1.getD i false) then
      (bfs_loop state 34 (acc.1.set i true) [i], acc.2 + 1)
    else acc) ((List.replicate IDX_TO_POS.length false), 0)).2

/-- `search.heuristic_advanced`.  Python's `float('inf')` is `⊤ : ℕ∞`;
`max(0, comps - 1)` is truncated `Nat` subtraction. -/
def heuristic_advanced (state : Nat) : ℕ∞ :=
  let num_pieces := popcount state
  if num_pieces ≤ 1 then (if is_goal state then 0 else ⊤)
  else
    let h1 := num_pieces - 1
    let min_dist : ℕ∞ := (List.range IDX_TO_POS.length).foldl
      (fun md i => if state.testBit i then
        min md ((manhattan_to_center i : Nat) : ℕ∞) else md) ⊤
    let h2 := if min_dist = ⊤ then 0 else (min_dist.untop' 0 + 1) / 2
    let h3 := connected_components state - 1
    let isolated_penalty := IDX_TO_POS.enum.foldl (fun pen ip =>
      if state.testBit ip.1 then
        let neighbors := DIRS.foldl (fun cnt d =>
          let q := (ip.2.1 + d.1, ip.2.2 + d.2)
          if is_valid_cell q.1 q.2 && state.testBit (POS_TO_IDX q) then cnt + 1
          else cnt) (0 : Nat)
        if neighbors ≤ 1 then pen + 1 else pen
      else pen) 0
    let h4 := isolated_penalty / 3
    ((max (max (max h1 h2) h3) h4 : Nat) : ℕ∞)

/-- The position of valid-cell index `i` (defaulting like `IDX_TO_POS.getD`). -/
def posOf (i : Nat) : Int × Int := IDX_TO_POS.getD i (0, 0)

/-- Index-level action of symmetry `sym`: where cell index `i` is sent. -/
def symIdx (sym i : Nat) : Nat := POS_TO_IDX (transform sym (posOf i))

/-- Inverse of each of the eight D4 transforms (rotation 1 and 3 are mutually
inverse, every other element is an involution); verified by `decide` below. -/
def invTable (k : Nat) : Nat := [0, 3, 2, 1, 4, 5, 6, 7].getD k 0

/-- Composition table of the eight transforms:
`transform (mulTable s k) = transform s ∘ transform k` on all valid cells;
verified by `decide` below. -/
def mulTable (s k : Nat) : Nat :=
  ([[0, 1, 2, 3, 4, 5, 6, 7],
    [1, 2, 3, 0, 7, 6, 4, 5],
    [2, 3, 0, 1, 5, 4, 7, 6],
    [3, 0, 1, 2, 6, 7, 5, 4],
    [4, 6, 5, 7, 0, 2, 1, 3],
    [5, 7, 4, 6, 2, 0, 3, 1],
    [6, 5, 7, 4, 3, 1, 0, 2],
    [7, 4, 6, 5, 1, 3, 2, 0]].getD s []).getD k 0

/-- A jump move `(src, over, dst)` of cell indices. -/
abbrev Move := Nat × Nat × Nat

/-- A frontier entry `(f, tiebreak, g, canonical_state, original_state)`
as pushed on `open_set` in `search.astar_solve`. -/
structure Entry where
  f : ℕ∞
  tie : ℕ∞
  g : Nat
  canon : Nat
  orig : Nat
deriving DecidableEq

/-- The statistics dictionary returned by `search.astar_solve`; keys that a
given status does not report are `none`. -/
structure Stats where
  status : String
  expanded : Nat
  generated : Nat
  elapsed : Nat
  best_pieces : Option Nat
  moves : Option Nat
  final_pieces : Option Nat
deriving DecidableEq

/-- The configuration of `search.astar_solve`; `greedy_bias` is accepted by the
Python signature but never read, so it is omitted.  `time_limit` is the
wall-clock budget compared against the elapsed-time oracle. -/
structure Config where
  time_limit : Nat
  use_symmetry : Bool
  max_nodes : Nat
deriving DecidableEq

/-- The mutable locals of one `astar_solve` call.  `tick` counts loop
iterations and indexes the elapsed-time oracle (one `time.time()` reading per
iteration). -/
structure SearchState where
  open_set : List Entry
  g_score : List (Nat × Nat)
  came_from : List (Nat × (Nat × Option Move))
  nodes_expanded : Nat
  nodes_generated : Nat
  tie_breaker : Nat
  best_pieces : Nat
  tick : Nat
deriving DecidableEq

/-- Lexicographic comparison of frontier entries, as Python compares the
5-tuples `(f, tiebreak, g, canonical_state, original_state)`. -/
def entryLE (a b : Entry) : Bool :=
  decide (a.f < b.f) || (a.f == b.f && (decide (a.tie < b.tie) || (a.tie == b.tie &&
    (decide (a.g < b.g) || (a.g == b.g && (decide (a.canon < b.canon) ||
      (a.canon == b.canon && decide (a.orig ≤ b.orig))))))))

/-- `heapq.heappop`: remove a minimal entry (w.r.t. the tuple order). -/
def popMin : List Entry → Option (Entry × List Entry)
  | [] => none
  | e :: es =>
    match popMin es with
    | none => some (e, [])
    | some (m, rest) => if entryLE e m then some (e, es) else some (m, e :: rest)

/-- First-match association-list lookup (dict read; insertion conses, so the
newest binding wins, giving dict-overwrite semantics). -/
def lookupA {α : Type} : List (Nat × α) → Nat → Option α
  | [], _ => none
  | (k, v) :: rest, key => if k == key then some v else lookupA rest key

/-- `g_score.get(key, float('inf'))`. -/
def gLookup (gs : List (Nat × Nat)) (k : Nat) : ℕ∞ :=
  match lookupA gs k with
  | some v => (v : ℕ∞)
  | none => ⊤

/-- The tie-break value pushed with each successor (`search.py`):
`(popcount(neighbor) << 16) + h + (tie_breaker & 0xFFFF)`. -/
def tie_value (pc : Nat) (h : ℕ∞) (counter : Nat) : ℕ∞ :=
  ((pc <<< 16 : Nat) : ℕ∞) + h + ((counter &&& 0xFFFF : Nat) : ℕ∞)

/-- The path-reconstruction loop of the SUCCESS branch: walk the Provenance
Map backward, collecting moves.  Each recorded predecessor has one more peg
than its successor, so the walk takes at most 33 steps; fuel 34 is enough
(proved via the search invariant below). -/
def reconstruct : Nat → List (Nat × (Nat × Option Move)) → Nat → List Move
  | 0, _, _ => []
  | fuel + 1, cf, cur =>
    match lookupA cf cur with
    | none => []
    | some pm =>
      reconstruct fuel cf pm.1 ++ (match pm.2 with | some mv => [mv] | none => [])

/-- One iteration of the successor loop of `astar_solve`: relax one move from
the expanded concrete state `orig` (with cost-so-far `g`). -/
def pushSuccessor (cfg : Config) (orig g : Nat) (ls : SearchState) (move : Move) :
    SearchState :=
  let neighbor := apply_move_fast orig move
  let neighbor_canonical := if cfg.use_symmetry then canonicalize neighbor else neighbor
  let tentative_g := g + 1
  if (tentative_g : ℕ∞) < gLookup ls.g_score neighbor_canonical then
    let h := heuristic_advanced neighbor
    { ls with
      came_from := (neighbor, (orig, some move)) :: ls.came_from,
      g_score := (neighbor_canonical, tentative_g) :: ls.g_score,
      tie_breaker := ls.tie_breaker + 1,
      open_set := ⟨(tentative_g : ℕ∞) + h,
        tie_value (popcount neighbor) h (ls.tie_breaker + 1), tentative_g,
        neighbor_canonical, neighbor⟩ :: ls.open_set,
      nodes_generated := ls.nodes_generated + 1 }
  else ls

/-- Outcome of one iteration of the `while open_set` loop. -/
inductive StepRes where
  | done (r : Option (List Move) × Stats)
  | cont (ls : SearchState)
deriving DecidableEq

/-- One iteration of the main loop of `search.astar_solve`, in source order:
empty-frontier exit, time check, node-budget check, pop, stale-entry skip,
goal test with path reconstruction, best-peg update, successor generation. -/
def astarStep (cfg : Config) (ora : Nat → Nat) (ls : SearchState) : StepRes :=
  if ls.open_set.isEmpty then
    .done (none, ⟨"exhausted", ls.nodes_expanded, ls.nodes_generated,
      ora ls.tick, some ls.best_pieces, none, none⟩)
  else if cfg.time_limit < ora ls.tick then
    .done (none, ⟨"timeout", ls.nodes_expanded, ls.nodes_generated,
      ora ls.tick, some ls.best_pieces, none, none⟩)
  else if cfg.max_nodes < ls.nodes_expanded then
    .done (none, ⟨"max_nodes_exceeded", ls.nodes_expanded, ls.nodes_generated,
      ora ls.tick, some ls.best_pieces, none, none⟩)
  else
    match popMin ls.open_set with
    | none =>
      .done (none, ⟨"exhausted", ls.nodes_expanded, ls.nodes_generated,
        ora ls.tick, some ls.best_pieces, none, none⟩)
    | some (e, rest) =>
      if gLookup ls.g_score e.canon < (e.g : ℕ∞) then
        .cont { ls with open_set := rest, tick := ls.tick + 1 }
      else
        let ls1 := { ls with open_set := rest, nodes_expanded := ls.nodes_expanded + 1 }
        if is_goal e.orig then
          let path := reconstruct 34 ls1.came_from e.orig
          .done (some path, ⟨"success", ls1.nodes_expanded, ls1.nodes_generated,
            ora ls.tick, none, some path.length, some (popcount e.orig)⟩)
        else
          let best := if popcount e.orig < ls1.best_pieces then popcount e.orig
            else ls1.best_pieces
          let ls2 := (get_valid_moves_fast e.orig).foldl
            (pushSuccessor cfg e.orig e.g) { ls1 with best_pieces := best }
          .cont { ls2 with tick := ls.tick + 1 }

/-- Iterate the loop; `none` means the given fuel ran out before the call
returned (a model artifact: the Python loop has no such bound). -/
def astarRun (cfg : Config) (ora : Nat → Nat) :
    Nat → SearchState → Option (Option (List Move) × Stats)
  | 0, _ => none
  | fuel + 1, ls =>
    match astarStep cfg ora ls with
    | .done r => some r
    | .cont ls' => astarRun cfg ora fuel ls'

/-- The locals of `astar_solve` just before the first loop iteration. -/
def initSearch (cfg : Config) : SearchState :=
  let start := initial_state
  let sc := if cfg.use_symmetry then canonicalize start else start
  { open_set := [⟨heuristic_advanced start, 0, 0, sc, start⟩],
    g_score := [(sc, 0)],
    came_from := [],
    nodes_expanded := 0,
    nodes_generated := 1,
    tie_breaker := 0,
    best_pieces := popcount start,
    tick := 0 }

/-- `search.astar_solve`, driven by an elapsed-time oracle and a fuel bound on
the number of loop iterations. -/
def astar_solve (cfg : Config) (ora : Nat → Nat) (fuel : Nat) :
    Option (Option (List Move) × Stats) :=
  astarRun cfg ora fuel (initSearch cfg)

/-- Replay a move sequence from a state, requiring each move to be legal
(`get_valid_moves_fast`) on the state it is applied to. -/
def runPath : Nat → List Move → Option Nat
  | s, [] => some s
  | s, m :: ms =>
    if m ∈ get_valid_moves_fast s then runPath (apply_move_fast s m) ms else none

/-! ### Popcount: fuel irrelevance, binary recurrence, and the bit-sum form -/

theorem popcountFuel_congr : ∀ f₁ f₂ n : Nat, n ≤ f₁ → n ≤ f₂ →
    popcountFuel f₁ n = popcountFuel f₂ n := by
  intro f₁
  induction f₁ with
  | zero =>
    intro f₂ n h1 _
    have hn : n = 0 := Nat.le_zero.mp h1
    subst hn
    cases f₂ <;> rfl
  | succ f ih =>
    intro f₂ n h1 h2
    match n, f₂ with
    | 0, 0 => rfl
    | 0, f₂ + 1 => rfl
    | n + 1, f₂ + 1 =>
      simp only [popcountFuel]
      have hh : (n + 1) / 2 ≤ f ∧ (n + 1) / 2 ≤ f₂ := by omega
      rw [ih f₂ ((n + 1) / 2) hh.1 hh.2]

theorem popcount_div2 {n : Nat} (h : n ≠ 0) :
    popcount n = n % 2 + popcount (n / 2) := by
  match n, h with
  | m + 1, _ =>
    show popcountFuel (m + 1) (m + 1) = (m + 1) % 2 + popcountFuel ((m + 1) / 2) ((m + 1) / 2)
    simp only [popcountFuel]
    rw [popcountFuel_congr m ((m + 1) / 2) ((m + 1) / 2) (by omega) (Nat.le_refl _)]

theorem popcount_eq_sum : ∀ w n : Nat, n < 2 ^ w →
    popcount n = ∑ i ∈ Finset.range w, (if n.testBit i then 1 else 0) := by
  intro w
  induction w with
  | zero =>
    intro n h
    have hn : n = 0 := by simpa using h
    subst hn
    rfl
  | succ w ih =>
    intro n h
    by_cases h0 : n = 0
    · subst h0
      simp [popcount, popcountFuel, Nat.zero_testBit]
    · have hpow : 2 ^ (w + 1) = 2 ^ w * 2 := by rw [Nat.pow_succ]
      have hd : n / 2 < 2 ^ w := by omega
      rw [popcount_div2 h0, ih (n / 2) hd, Finset.sum_range_succ']
      simp only [Nat.testBit_add_one]
      have hbit : (if n.testBit 0 then 1 else 0) = n % 2 := by
        rw [Nat.testBit_zero]
        rcases Nat.mod_two_eq_zero_or_one n with h2 | h2 <;> simp [h2]
      rw [hbit]
      omega

theorem popcount_le {w n : Nat} (h : n < 2 ^ w) : popcount n ≤ w := by
  rw [popcount_eq_sum w n h]
  calc (∑ i ∈ Finset.range w, (if n.testBit i then 1 else 0))
      ≤ ∑ _i ∈ Finset.range w, 1 :=
        Finset.sum_le_sum (fun i _ => by split <;> omega)
    _ = w := by simp

theorem popcount_pos {n : Nat} (h : n ≠ 0) : 0 < popcount n := by
  induction n using Nat.strong_induction_on with
  | _ n ih =>
    rw [popcount_div2 h]
    rcases Nat.mod_two_eq_zero_or_one n with h2 | h2
    · have hne : n / 2 ≠ 0 := by omega
      have := ih (n / 2) (by omega) hne
      omega
    · omega

/-! ### Bit-level description of `bit_clear` and `apply_move_fast` -/

theorem one_shiftLeft_eq (i : Nat) : (1 <<< i) = 2 ^ i := by
  rw [Nat.shiftLeft_eq, Nat.one_mul]

theorem testBit_bit_clear (x i j : Nat) :
    (bit_clear x i).testBit j = if j = i then false else x.testBit j := by
  by_cases hij : j = i
  · subst hij
    simp only [bit_clear, one_shiftLeft_eq, Nat.testBit_xor, Nat.testBit_and,
      Nat.testBit_two_pow, if_pos rfl, decide_eq_true_eq]
    cases h : x.testBit j <;> simp
  · have hij' : i ≠ j := fun h => hij h.symm
    simp only [bit_clear, one_shiftLeft_eq, Nat.testBit_xor, Nat.testBit_and,
      Nat.testBit_two_pow, if_neg hij]
    simp [hij']

theorem testBit_apply_move (x s o d j : Nat) :
    (apply_move_fast x (s, o, d)).testBit j =
      if j = d then true else if j = s ∨ j = o then false else x.testBit j := by
  simp only [apply_move_fast, Nat.testBit_or, testBit_bit_clear, one_shiftLeft_eq,
    Nat.testBit_two_pow]
  by_cases hd : j = d
  · simp [hd]
  · have hd' : ¬ d = j := fun h => hd h.symm
    by_cases hs : j = s
    · have hds : ¬ d = s := by omega
      have hsd : ¬ s = d := by omega
      simp [hd, hs, hds, hsd]
    · by_cases ho : j = o
      · have hdo : ¬ d = o := by omega
        have hod : ¬ o = d := by omega
        simp [hd, hs, ho, hdo, hod]
      · simp [hd, hs, ho, hd']

theorem and_two_pow_eq (x i : Nat) :
    x &&& (1 <<< i) = if x.testBit i then 1 <<< i else 0 := by
  apply Nat.eq_of_testBit_eq
  intro j
  simp only [Nat.testBit_and, one_shiftLeft_eq, Nat.testBit_two_pow]
  by_cases hij : i = j
  · subst hij
    cases h : x.testBit i <;> simp [h, Nat.testBit_two_pow]
  · cases h : x.testBit i <;> simp [h, hij, Nat.zero_testBit, Nat.testBit_two_pow]

theorem and_two_pow_ne_zero (x i : Nat) : (x &&& (1 <<< i) != 0) = x.testBit i := by
  rw [and_two_pow_eq]
  cases h : x.testBit i
  · simp
  · simp only [if_pos rfl, one_shiftLeft_eq]
    have : 2 ^ i ≠ 0 := Nat.pos_iff_ne_zero.mp (Nat.two_pow_pos i)
    simp [this]

/-! ### Membership in `get_valid_moves_fast` -/

theorem mem_get_valid_moves {x : Nat} {m : Move} (h : m ∈ get_valid_moves_fast x) :
    m ∈ VALID_MOVES ∧ x.testBit m.1 = true ∧ x.testBit m.2.1 = true ∧
      x.testBit m.2.2 = false := by
  rw [get_valid_moves_fast, List.mem_filter] at h
  obtain ⟨hmem, hcond⟩ := h
  rw [Bool.and_eq_true, Bool.and_eq_true, and_two_pow_ne_zero, and_two_pow_ne_zero] at hcond
  refine ⟨hmem, hcond.1.1, hcond.1.2, ?_⟩
  have := hcond.2
  rw [and_two_pow_eq] at this
  cases hb : x.testBit m.2.2
  · rfl
  · rw [hb, if_pos rfl, one_shiftLeft_eq] at this
    have h2 : (2 : Nat) ^ m.2.2 ≠ 0 := Nat.pos_iff_ne_zero.mp (Nat.two_pow_pos _)
    simp [h2] at this

/-- Every catalogued move has indices below 33 and pairwise distinct
source / jumped-over / destination cells. -/
theorem valid_moves_facts : ∀ m ∈ VALID_MOVES,
    m.1 < 33 ∧ m.2.1 < 33 ∧ m.2.2 < 33 ∧
      m.1 ≠ m.2.1 ∧ m.1 ≠ m.2.2 ∧ m.2.1 ≠ m.2.2 := by decide

theorem apply_move_lt {x w : Nat} (hx : x < 2 ^ w) (h33 : 33 ≤ w) {m : Move}
    (hm : m ∈ VALID_MOVES) : apply_move_fast x m < 2 ^ w := by
  obtain ⟨s, o, d⟩ := m
  obtain ⟨hs, ho, hd, _⟩ := valid_moves_facts _ hm
  have hpow : ∀ k : Nat, k < 33 → (1 <<< k) < 2 ^ w := by
    intro k hk
    rw [one_shiftLeft_eq]
    exact Nat.pow_lt_pow_right (by omega) (by omega)
  have h1 : bit_clear x s < 2 ^ w :=
    Nat.xor_lt_two_pow hx (Nat.and_lt_two_pow _ (hpow s hs))
  have h2 : bit_clear (bit_clear x s) o < 2 ^ w :=
    Nat.xor_lt_two_pow h1 (Nat.and_lt_two_pow _ (hpow o ho))
  exact Nat.or_lt_two_pow h2 (hpow d hd)

/-! ### C2: each legal move clears two bits, sets one, and drops the count by 1 -/

theorem popcount_apply_move {x : Nat} {m : Move} (h : m ∈ get_valid_moves_fast x) :
    popcount (apply_move_fast x m) = popcount x - 1 := by
  obtain ⟨s, o, d⟩ := m
  obtain ⟨hmem, hbs0, hbo0, hbd0⟩ := mem_get_valid_moves h
  obtain ⟨hs0, ho0, hd0, hso0, hsd0, hod0⟩ := valid_moves_facts _ hmem
  have hbs : x.testBit s = true := hbs0
  have hbo : x.testBit o = true := hbo0
  have hbd : x.testBit d = false := hbd0
  have hs33 : s < 33 := hs0
  have ho33 : o < 33 := ho0
  have hd33 : d < 33 := hd0
  have hso : s ≠ o := hso0
  have hsd : s ≠ d := hsd0
  have hod : o ≠ d := hod0
  have hxw : x < 2 ^ (x + 34) := lt_of_lt_of_le (Nat.lt_two_pow x)
    (Nat.pow_le_pow_right (by omega) (by omega))
  have hrw : apply_move_fast x (s, o, d) < 2 ^ (x + 34) :=
    apply_move_lt hxw (by omega) hmem
  rw [popcount_eq_sum (x + 34) _ hrw, popcount_eq_sum (x + 34) x hxw]
  have hsS : s ∈ Finset.range (x + 34) := Finset.mem_range.mpr (by omega)
  have hoS : o ∈ (Finset.range (x + 34)).erase s :=
    Finset.mem_erase.mpr ⟨fun hc => hso hc.symm, Finset.mem_range.mpr (by omega)⟩
  have hdS : d ∈ ((Finset.range (x + 34)).erase s).erase o :=
    Finset.mem_erase.mpr ⟨fun hc => hod hc.symm,
      Finset.mem_erase.mpr ⟨fun hc => hsd hc.symm, Finset.mem_range.mpr (by omega)⟩⟩
  have hsplit : ∀ y : Nat,
      (∑ i ∈ Finset.range (x + 34), if y.testBit i then 1 else 0) =
        (if y.testBit s then 1 else 0) + ((if y.testBit o then 1 else 0) +
          ((if y.testBit d then 1 else 0) +
            ∑ i ∈ (((Finset.range (x + 34)).erase s).erase o).erase d,
              if y.testBit i then 1 else 0)) := by
    intro y
    rw [← Finset.add_sum_erase _ _ hsS, ← Finset.add_sum_erase _ _ hoS,
      ← Finset.add_sum_erase _ _ hdS]
  rw [hsplit (apply_move_fast x (s, o, d)), hsplit x]
  have hcongr : (∑ i ∈ (((Finset.range (x + 34)).erase s).erase o).erase d,
        if (apply_move_fast x (s, o, d)).testBit i then 1 else 0) =
      (∑ i ∈ (((Finset.range (x + 34)).erase s).erase o).erase d,
        if x.testBit i then 1 else 0) := by
    refine Finset.sum_congr rfl fun i hi => ?_
    have h1 : i ≠ d := Finset.ne_of_mem_erase hi
    have h2 : i ≠ o := Finset.ne_of_mem_erase (Finset.mem_of_mem_erase hi)
    have h3 : i ≠ s :=
      Finset.ne_of_mem_erase (Finset.mem_of_mem_erase (Finset.mem_of_mem_erase hi))
    rw [testBit_apply_move]
    simp [h1, h2, h3]
  rw [hcongr]
  have e1 : (apply_move_fast x (s, o, d)).testBit s = false := by
    rw [testBit_apply_move, if_neg hsd, if_pos (Or.inl rfl)]
  have e2 : (apply_move_fast x (s, o, d)).testBit o = false := by
    rw [testBit_apply_move, if_neg hod, if_pos (Or.inr rfl)]
  have e3 : (apply_move_fast x (s, o, d)).testBit d = true := by
    rw [testBit_apply_move, if_pos rfl]
  rw [e1, e2, e3, hbs, hbo, hbd]
  simp only [Bool.false_eq_true, if_false, if_true, if_neg id, if_pos rfl]
  omega

/-- C2: for every state and every move in the list returned by
`get_valid_moves_fast state`, applying the move with `apply_move_fast` clears
the source and jumped-over bits, sets the destination bit, and the peg count
of the result equals `popcount state - 1`. -/
theorem C2_move_effect {state : Nat} {m : Move} (h : m ∈ get_valid_moves_fast state) :
    (apply_move_fast state m).testBit m.1 = false ∧
    (apply_move_fast state m).testBit m.2.1 = false ∧
    (apply_move_fast state m).testBit m.2.2 = true ∧
    popcount (apply_move_fast state m) = popcount state - 1 := by
  obtain ⟨s, o, d⟩ := m
  obtain ⟨hmem, _, _, _⟩ := mem_get_valid_moves h
  obtain ⟨_, _, _, hso0, hsd0, hod0⟩ := valid_moves_facts _ hmem
  have hsd : s ≠ d := hsd0
  have hod : o ≠ d := hod0
  refine ⟨?_, ?_, ?_, popcount_apply_move h⟩
  · rw [testBit_apply_move, if_neg hsd, if_pos (Or.inl rfl)]
  · rw [testBit_apply_move, if_neg hod, if_pos (Or.inr rfl)]
  · rw [testBit_apply_move, if_pos rfl]

theorem C2_move_effect_witness :
    ((4, 9, 16) : Move) ∈ get_valid_moves_fast initial_state ∧
      ((apply_move_fast initial_state (4, 9, 16)).testBit 4 = false ∧
        (apply_move_fast initial_state (4, 9, 16)).testBit 9 = false ∧
        (apply_move_fast initial_state (4, 9, 16)).testBit 16 = true ∧
        popcount (apply_move_fast initial_state (4, 9, 16)) =
          popcount initial_state - 1) :=
  ⟨by decide, C2_move_effect (by decide)⟩

/-- C5: for every state with at most one peg, `heuristic_advanced` is `0` iff
the state is the goal; in particular a lone peg away from the center gets the
infinite estimate `⊤`. -/
theorem C5_heuristic_zero_iff_goal {state : Nat} (h : popcount state ≤ 1) :
    (heuristic_advanced state = 0 ↔ is_goal state = true) ∧
    (is_goal state = false → heuristic_advanced state = ⊤) := by
  have hh : heuristic_advanced state = if is_goal state then 0 else ⊤ := by
    simp [heuristic_advanced, h]
  cases hg : is_goal state
  · rw [hg] at hh
    simp at hh
    exact ⟨iff_of_false (fun hc => by rw [hh] at hc; exact absurd hc (by decide))
      (by decide), fun _ => hh⟩
  · rw [hg] at hh
    simp at hh
    exact ⟨iff_of_true hh rfl, fun hc => absurd hc (by decide)⟩

theorem C5_heuristic_zero_iff_goal_witness :
    popcount 1 ≤ 1 ∧
      ((heuristic_advanced 1 = 0 ↔ is_goal 1 = true) ∧
        (is_goal 1 = false → heuristic_advanced 1 = ⊤)) :=
  ⟨by decide, C5_heuristic_zero_iff_goal (by decide)⟩

/-- C9 counterexample: the tie-break folds only the low 16 bits of the push
counter, so two pushes with equal peg count, heuristic, and cost whose
counters differ by `2^16` receive identical tie-break values — the
`(f, tie-break)` pair is not unique per pushed entry. -/
theorem C9_tiebreak_counterexample :
    tie_value 1 3 1 = tie_value 1 3 65537 ∧ (1 : Nat) ≠ 65537 := by decide

/-- C9 (amended): the tie-break counter increases by exactly one at each push
that actually enqueues an entry, and entries pushed with equal peg count and
finite heuristic receive distinct tie-break values whenever their counters
differ in the low 16 bits; uniqueness of the full `(f, tie-break)` pair is not
guaranteed in general (see the counterexample). -/
theorem C9_amended_tiebreak :
    (∀ (cfg : Config) (orig g : Nat) (ls : SearchState) (m : Move),
      (pushSuccessor cfg orig g ls m).tie_breaker = ls.tie_breaker ∨
      (pushSuccessor cfg orig g ls m).tie_breaker = ls.tie_breaker + 1) ∧
    (∀ (pc : Nat) (h : ℕ∞) (c₁ c₂ : Nat), h ≠ ⊤ →
      c₁ &&& 65535 ≠ c₂ &&& 65535 → tie_value pc h c₁ ≠ tie_value pc h c₂) := by
  constructor
  · intro cfg orig g ls m
    by_cases hcond : ((g + 1 : Nat) : ℕ∞) < gLookup ls.g_score
        (if cfg.use_symmetry then canonicalize (apply_move_fast orig m)
          else apply_move_fast orig m)
    · right
      push_cast at hcond
      simp only [pushSuccessor, Nat.cast_add, Nat.cast_one]
      rw [if_pos hcond]
    · left
      push_cast at hcond
      simp only [pushSuccessor, Nat.cast_add, Nat.cast_one]
      rw [if_neg hcond]
  · intro pc h c₁ c₂ hh hne heq
    lift h to ℕ using hh with n
    unfold tie_value at heq
    norm_cast at heq
    omega

theorem C9_amended_tiebreak_witness :
    ((0 : ℕ∞) ≠ ⊤ ∧ (0 : Nat) &&& 65535 ≠ 1 &&& 65535) ∧
      tie_value 0 0 0 ≠ tie_value 0 0 1 :=
  ⟨⟨by decide, by decide⟩, C9_amended_tiebreak.2 0 0 0 1 (by decide) (by decide)⟩

/-! ### Folded minimum: the shape of `canonicalize` -/

theorem foldl_min_le_init : ∀ (l : List Nat) (a : Nat), l.foldl min a ≤ a := by
  intro l
  induction l with
  | nil => intro a; exact Nat.le_refl a
  | cons y t ih => intro a; exact le_trans (ih (min a y)) (Nat.min_le_left a y)

theorem foldl_min_le_mem : ∀ (l : List Nat) (a x : Nat), x ∈ l → l.foldl min a ≤ x := by
  intro l
  induction l with
  | nil => intro a x hx; cases hx
  | cons y t ih =>
    intro a x hx
    rcases List.mem_cons.mp hx with h | h
    · subst h
      exact le_trans (foldl_min_le_init t (min a x)) (Nat.min_le_right a x)
    · exact ih (min a y) x h

theorem foldl_min_mem_or :
    ∀ (l : List Nat) (a : Nat), l.foldl min a = a ∨ l.foldl min a ∈ l := by
  intro l
  induction l with
  | nil => intro a; exact Or.inl rfl
  | cons y t ih =>
    intro a
    rcases ih (min a y) with h | h
    · rcases Nat.le_total a y with hle | hle
      · left
        show t.foldl min (min a y) = a
        rw [h, Nat.min_eq_left hle]
      · right
        show t.foldl min (min a y) ∈ y :: t
        rw [h, Nat.min_eq_right hle]
        exact List.mem_cons_self y t
    · exact Or.inr (List.mem_cons_of_mem y h)

theorem foldl_min_eq_init_iff :
    ∀ (l : List Nat) (a : Nat), l.foldl min a = a ↔ ∀ x ∈ l, a ≤ x := by
  intro l
  induction l with
  | nil => intro a; simp
  | cons y t ih =>
    intro a
    constructor
    · intro h x hx
      have hle := foldl_min_le_mem (y :: t) a x hx
      omega
    · intro h
      have hay : a ≤ y := h y (List.mem_cons_self y t)
      show t.foldl min (min a y) = a
      rw [Nat.min_eq_left hay]
      exact (ih a).mpr fun x hx => h x (List.mem_cons_of_mem y hx)

theorem foldl_min_congr {l l' : List Nat} {a a' : Nat}
    (ha : a ∈ l) (ha' : a' ∈ l') (h1 : ∀ x ∈ l, x ∈ l') (h2 : ∀ x ∈ l', x ∈ l) :
    l.foldl min a = l'.foldl min a' := by
  apply Nat.le_antisymm
  · rcases foldl_min_mem_or l' a' with h | h
    · rw [h]
      exact foldl_min_le_mem l a a' (h2 a' ha')
    · exact foldl_min_le_mem l a _ (h2 _ h)
  · rcases foldl_min_mem_or l a with h | h
    · rw [h]
      exact foldl_min_le_mem l' a' a (h1 a ha)
    · exact foldl_min_le_mem l' a' _ (h1 _ h)

theorem canonicalize_eq_foldl (x : Nat) :
    canonicalize x = ((List.range 8).map (fun k => apply_symmetry x k)).foldl min x := by
  rw [List.foldl_map]
  unfold canonicalize
  have hfun : (fun (canonical sym : Nat) =>
      let candidate := apply_symmetry x sym
      if candidate < canonical then candidate else canonical) =
      fun c k => min c (apply_symmetry x k) := by
    funext c k
    show (if apply_symmetry x k < c then apply_symmetry x k else c) = min c (apply_symmetry x k)
    rcases Nat.lt_or_ge (apply_symmetry x k) c with hlt | hge
    · rw [if_pos hlt, Nat.min_eq_right (Nat.le_of_lt hlt)]
    · rw [if_neg (Nat.not_lt.mpr hge), Nat.min_eq_left hge]
  rw [hfun]

/-- C10: the canonical representative never exceeds the input, and equals it
exactly when the input is the least of its eight symmetric images. -/
theorem C10_canonicalize_le (x : Nat) :
    canonicalize x ≤ x ∧
      (canonicalize x = x ↔ ∀ k, k < 8 → x ≤ apply_symmetry x k) := by
  rw [canonicalize_eq_foldl]
  constructor
  · exact foldl_min_le_init _ x
  · rw [foldl_min_eq_init_iff]
    constructor
    · intro h k hk
      exact h _ (List.mem_map.mpr ⟨k, List.mem_range.mpr hk, rfl⟩)
    · intro h y hy
      obtain ⟨k, hk, rfl⟩ := List.mem_map.mp hy
      exact h k (List.mem_range.mp hk)

/-! ### The eight transforms permute the 33 valid cells -/

theorem symIdx_facts : ∀ s ∈ List.range 8, ∀ i ∈ List.range 33,
    is_valid_cell (transform s (posOf i)).1 (transform s (posOf i)).2 = true ∧
      IDX_TO_POS.contains (transform s (posOf i)) = true ∧ symIdx s i < 33 := by decide

theorem symIdx_inverse : ∀ k ∈ List.range 8, ∀ i ∈ List.range 33,
    symIdx (invTable k) (symIdx k i) = i ∧ symIdx k (symIdx (invTable k) i) = i := by decide

theorem symIdx_comp : ∀ s ∈ List.range 8, ∀ k ∈ List.range 8, ∀ j ∈ List.range 33,
    symIdx (invTable k) (symIdx (invTable s) j) = symIdx (invTable (mulTable s k)) j := by
  decide

theorem table_facts : ∀ s ∈ List.range 8, ∀ k ∈ List.range 8,
    mulTable s k < 8 ∧ invTable s < 8 ∧ mulTable (mulTable s (invTable k)) k = s := by decide

theorem symIdx_zero : ∀ i ∈ List.range 33, symIdx 0 i = i := by decide

theorem symIdx_lt {s i : Nat} (hs : s < 8) (hi : i < 33) : symIdx s i < 33 :=
  (symIdx_facts s (List.mem_range.mpr hs) i (List.mem_range.mpr hi)).2.2

theorem invTable_lt {s : Nat} (hs : s < 8) : invTable s < 8 :=
  (table_facts s (List.mem_range.mpr hs) s (List.mem_range.mpr hs)).2.1

theorem mulTable_lt {s k : Nat} (hs : s < 8) (hk : k < 8) : mulTable s k < 8 :=
  (table_facts s (List.mem_range.mpr hs) k (List.mem_range.mpr hk)).1

theorem symIdx_cancel {k i : Nat} (hk : k < 8) (hi : i < 33) :
    symIdx (invTable k) (symIdx k i) = i :=
  (symIdx_inverse k (List.mem_range.mpr hk) i (List.mem_range.mpr hi)).1

theorem symIdx_cancel' {k i : Nat} (hk : k < 8) (hi : i < 33) :
    symIdx k (symIdx (invTable k) i) = i :=
  (symIdx_inverse k (List.mem_range.mpr hk) i (List.mem_range.mpr hi)).2

theorem myIndexOf_lt_of_mem {α : Type} [BEq α] [LawfulBEq α] {q : α} {l : List α}
    (h : q ∈ l) : l.indexOf q < l.length := by
  induction l with
  | nil => cases h
  | cons p t ih =>
    rw [List.indexOf_cons]
    cases hpq : (p == q)
    · have hq : q ∈ t := by
        rcases List.mem_cons.mp h with h1 | h1
        · subst h1
          simp at hpq
        · exact h1
      have := ih hq
      simp only [cond_false]
      simpa using Nat.succ_lt_succ this
    · simp

/-! ### Bit-level characterization of `apply_symmetry` -/

theorem testBit_foldl_or (l : List (Int × Int)) (a j : Nat) :
    ((l.foldl (fun ns q =>
        if IDX_TO_POS.contains q then ns ||| (1 <<< POS_TO_IDX q) else ns) a).testBit j) =
      (a.testBit j || l.any (fun q =>
        IDX_TO_POS.contains q && decide (POS_TO_IDX q = j))) := by
  induction l generalizing a with
  | nil => simp
  | cons q t ih =>
    show ((t.foldl _
      (if IDX_TO_POS.contains q then a ||| (1 <<< POS_TO_IDX q) else a)).testBit j) = _
    by_cases hq : IDX_TO_POS.contains q = true
    · rw [if_pos hq, ih]
      simp only [List.any_cons, hq, Bool.true_and, Nat.testBit_or, one_shiftLeft_eq,
        Nat.testBit_two_pow]
      rw [Bool.or_assoc]
    · rw [if_neg hq, ih]
      have hq' : IDX_TO_POS.contains q = false := by simpa using hq
      rw [List.any_cons, hq', Bool.false_and, Bool.false_or]

theorem foldl_or_lt (l : List (Int × Int)) (a : Nat) (ha : a < 2 ^ 33) :
    (l.foldl (fun ns q =>
      if IDX_TO_POS.contains q then ns ||| (1 <<< POS_TO_IDX q) else ns) a) < 2 ^ 33 := by
  induction l generalizing a with
  | nil => exact ha
  | cons q t ih =>
    show (t.foldl _ (if IDX_TO_POS.contains q then a ||| (1 <<< POS_TO_IDX q) else a)) < 2 ^ 33
    by_cases hq : IDX_TO_POS.contains q = true
    · rw [if_pos hq]
      apply ih
      have hmem : q ∈ IDX_TO_POS := List.elem_iff.mp hq
      have hidx : POS_TO_IDX q < 33 := by
        have := myIndexOf_lt_of_mem hmem
        have hlen : IDX_TO_POS.length = 33 := by rfl
        rw [hlen] at this
        exact this
      refine Nat.or_lt_two_pow ha ?_
      rw [one_shiftLeft_eq]
      exact Nat.pow_lt_pow_right (by omega) hidx
    · rw [if_neg hq]
      exact ih a ha

theorem apply_symmetry_lt (x k : Nat) : apply_symmetry x k < 2 ^ 33 := by
  unfold apply_symmetry
  exact foldl_or_lt _ 0 (by decide)

theorem testBit_apply_symmetry {k : Nat} (hk : k < 8) (x j : Nat) :
    ((apply_symmetry x k).testBit j = true) ↔
      ∃ i, i < 33 ∧ x.testBit i = true ∧ symIdx k i = j := by
  unfold apply_symmetry
  rw [testBit_foldl_or]
  simp only [Nat.zero_testBit, Bool.false_or]
  rw [List.any_eq_true]
  have hlen : IDX_TO_POS.length = 33 := by rfl
  constructor
  · rintro ⟨q, hq, hcond⟩
    rw [Bool.and_eq_true, decide_eq_true_eq] at hcond
    obtain ⟨hqc, hqj⟩ := hcond
    rw [List.mem_filterMap] at hq
    obtain ⟨p, hp, hpq⟩ := hq
    rw [List.mem_filterMap] at hp
    obtain ⟨i, hi, hip⟩ := hp
    rw [List.mem_range, hlen] at hi
    split at hip
    case isFalse => exact absurd hip (by simp)
    case isTrue hb =>
      injection hip with hip
      split at hpq
      case isFalse => exact absurd hpq (by simp)
      case isTrue hv =>
        injection hpq with hpq
        refine ⟨i, hi, hb, ?_⟩
        show POS_TO_IDX (transform k (posOf i)) = j
        have hpi : posOf i = p := hip
        rw [hpi, hpq]
        exact hqj
  · rintro ⟨i, hi, hb, hs⟩
    refine ⟨transform k (posOf i), ?_, ?_⟩
    · rw [List.mem_filterMap]
      refine ⟨posOf i, ?_, ?_⟩
      · rw [List.mem_filterMap]
        refine ⟨i, by rw [List.mem_range, hlen]; exact hi, by rw [if_pos hb]; rfl⟩
      · show (if is_valid_cell (transform k (posOf i)).1 (transform k (posOf i)).2 then
            some (transform k (posOf i)) else none) = some (transform k (posOf i))
        rw [if_pos (symIdx_facts k (List.mem_range.mpr hk) i (List.mem_range.mpr hi)).1]
    · rw [Bool.and_eq_true, decide_eq_true_eq]
      exact ⟨(symIdx_facts k (List.mem_range.mpr hk) i (List.mem_range.mpr hi)).2.1, hs⟩

theorem testBit_high_false {n j : Nat} (hn : n < 2 ^ 33) (hj : 33 ≤ j) :
    n.testBit j = false :=
  Nat.testBit_lt_two_pow (lt_of_lt_of_le hn (Nat.pow_le_pow_right (by omega) hj))

theorem testBit_apply_symmetry_inv {k j : Nat} (hk : k < 8) (hj : j < 33) (x : Nat) :
    (apply_symmetry x k).testBit j = x.testBit (symIdx (invTable k) j) := by
  rw [Bool.eq_iff_iff, testBit_apply_symmetry hk]
  constructor
  · rintro ⟨i, hi, hb, hs⟩
    have hc : symIdx (invTable k) (symIdx k i) = i := symIdx_cancel hk hi
    rw [← hs, hc]
    exact hb
  · intro hb
    exact ⟨symIdx (invTable k) j, symIdx_lt (invTable_lt hk) hj, hb,
      symIdx_cancel' hk hj⟩

theorem apply_symmetry_comp {s k : Nat} (hs : s < 8) (hk : k < 8) (x : Nat) :
    apply_symmetry (apply_symmetry x k) s = apply_symmetry x (mulTable s k) := by
  have hmul : mulTable s k < 8 := mulTable_lt hs hk
  apply Nat.eq_of_testBit_eq
  intro j
  by_cases hj : j < 33
  · rw [testBit_apply_symmetry_inv hs hj, testBit_apply_symmetry_inv hmul hj,
      testBit_apply_symmetry_inv hk (symIdx_lt (invTable_lt hs) hj)]
    congr 1
    exact symIdx_comp s (List.mem_range.mpr hs) k (List.mem_range.mpr hk) j
      (List.mem_range.mpr hj)
  · rw [testBit_high_false (apply_symmetry_lt _ _) (by omega),
      testBit_high_false (apply_symmetry_lt _ _) (by omega)]

theorem apply_symmetry_zero {x : Nat} (hx : x < 2 ^ 33) : apply_symmetry x 0 = x := by
  apply Nat.eq_of_testBit_eq
  intro j
  by_cases hj : j < 33
  · rw [testBit_apply_symmetry_inv (by omega) hj]
    have h0 : invTable 0 = 0 := rfl
    rw [h0, symIdx_zero j (List.mem_range.mpr hj)]
  · rw [testBit_high_false (apply_symmetry_lt _ _) (by omega),
      testBit_high_false hx (by omega)]

theorem canonicalize_apply_symmetry {x k : Nat} (hx : x < 2 ^ 33) (hk : k < 8) :
    canonicalize (apply_symmetry x k) = canonicalize x := by
  rw [canonicalize_eq_foldl, canonicalize_eq_foldl]
  apply foldl_min_congr
  · exact List.mem_map.mpr ⟨0, List.mem_range.mpr (by omega),
      apply_symmetry_zero (apply_symmetry_lt x k)⟩
  · exact List.mem_map.mpr ⟨0, List.mem_range.mpr (by omega), apply_symmetry_zero hx⟩
  · intro y hy
    obtain ⟨s, hs, rfl⟩ := List.mem_map.mp hy
    rw [List.mem_range] at hs
    rw [apply_symmetry_comp hs hk]
    exact List.mem_map.mpr ⟨mulTable s k, List.mem_range.mpr (mulTable_lt hs hk), rfl⟩
  · intro y hy
    obtain ⟨s, hs, rfl⟩ := List.mem_map.mp hy
    rw [List.mem_range] at hs
    refine List.mem_map.mpr ⟨mulTable s (invTable k),
      List.mem_range.mpr (mulTable_lt hs (invTable_lt hk)), ?_⟩
    rw [apply_symmetry_comp (mulTable_lt hs (invTable_lt hk)) hk,
      (table_facts s (List.mem_range.mpr hs) k (List.mem_range.mpr hk)).2.2]

/-- C3: every symmetric image of a 33-bit state canonicalizes to the same
representative: `canonicalize (apply_symmetry x k) = canonicalize x` for all
`k < 8`. -/
theorem C3_canonicalize_symmetry_invariant {x k : Nat} (hx : x < 2 ^ 33) (hk : k < 8) :
    canonicalize (apply_symmetry x k) = canonicalize x :=
  canonicalize_apply_symmetry hx hk

theorem C3_canonicalize_symmetry_invariant_witness :
    (initial_state < 2 ^ 33 ∧ (1 : Nat) < 8) ∧
      canonicalize (apply_symmetry initial_state 1) = canonicalize initial_state :=
  ⟨⟨by decide, by decide⟩, C3_canonicalize_symmetry_invariant (by decide) (by decide)⟩

/-- C4: `canonicalize` is idempotent on 33-bit states. -/
theorem C4_canonicalize_idempotent {x : Nat} (hx : x < 2 ^ 33) :
    canonicalize (canonicalize x) = canonicalize x := by
  have hfold := canonicalize_eq_foldl x
  rcases foldl_min_mem_or ((List.range 8).map (fun k => apply_symmetry x k)) x with h | h
  · have hcx : canonicalize x = x := hfold.trans h
    rw [hcx]
    exact hcx
  · rw [← hfold] at h
    obtain ⟨k, hk, heq⟩ := List.mem_map.mp h
    rw [List.mem_range] at hk
    calc canonicalize (canonicalize x)
        = canonicalize (apply_symmetry x k) := by rw [← heq]
      _ = canonicalize x := canonicalize_apply_symmetry hx hk

theorem C4_canonicalize_idempotent_witness :
    initial_state < 2 ^ 33 ∧
      canonicalize (canonicalize initial_state) = canonicalize initial_state :=
  ⟨by decide, C4_canonicalize_idempotent (by decide)⟩

/-- C6: each of the eight transforms is a bijection on the valid cells, so
`apply_symmetry` never drops a peg of a 33-bit state: the popcount is
preserved. -/
theorem C6_symmetry_preserves_popcount {x k : Nat} (hx : x < 2 ^ 33) (hk : k < 8) :
    popcount (apply_symmetry x k) = popcount x := by
  rw [popcount_eq_sum 33 _ (apply_symmetry_lt x k), popcount_eq_sum 33 x hx]
  refine Finset.sum_nbij' (fun a => symIdx (invTable k) a) (fun b => symIdx k b)
    ?_ ?_ ?_ ?_ ?_
  · intro a ha
    exact Finset.mem_range.mpr (symIdx_lt (invTable_lt hk) (Finset.mem_range.mp ha))
  · intro a ha
    exact Finset.mem_range.mpr (symIdx_lt hk (Finset.mem_range.mp ha))
  · intro a ha
    exact symIdx_cancel' hk (Finset.mem_range.mp ha)
  · intro a ha
    exact symIdx_cancel hk (Finset.mem_range.mp ha)
  · intro a ha
    rw [testBit_apply_symmetry_inv hk (Finset.mem_range.mp ha)]

theorem C6_symmetry_preserves_popcount_witness :
    (initial_state < 2 ^ 33 ∧ (3 : Nat) < 8) ∧
      popcount (apply_symmetry initial_state 3) = popcount initial_state :=
  ⟨⟨by decide, by decide⟩, C6_symmetry_preserves_popcount (by decide) (by decide)⟩

/-! ### C7: the node-budget check -/

/-- C7: at the start of any loop iteration with a nonempty frontier, when the
time budget has not been hit and the expanded count exceeds `max_nodes`, the
loop returns `max_nodes_exceeded` with the current statistics; moreover a
call with `max_nodes = 0` terminates on its second iteration with that
status (1 node expanded, 5 generated). -/
theorem C7_node_limit :
    (∀ (cfg : Config) (ora : Nat → Nat) (ls : SearchState),
      ls.open_set.isEmpty = false →
      ¬ cfg.time_limit < ora ls.tick →
      cfg.max_nodes < ls.nodes_expanded →
      astarStep cfg ora ls = .done (none, ⟨"max_nodes_exceeded", ls.nodes_expanded,
        ls.nodes_generated, ora ls.tick, some ls.best_pieces, none, none⟩)) ∧
    astar_solve ⟨0, false, 0⟩ (fun _ => 0) 2 =
      some (none, ⟨"max_nodes_exceeded", 1, 5, 0, some 32, none, none⟩) := by
  constructor
  · intro cfg ora ls h1 h2 h3
    unfold astarStep
    rw [if_neg (by simp [h1]), if_neg h2, if_pos h3]
  · rfl

theorem C7_node_limit_witness :
    (([⟨0, 0, 0, 0, 0⟩] : List Entry).isEmpty = false ∧
        ¬ (10 : Nat) < 0 ∧ (2 : Nat) < 5) ∧
      astarStep ⟨10, true, 2⟩ (fun _ => 0) ⟨[⟨0, 0, 0, 0, 0⟩], [], [], 5, 7, 0, 3, 0⟩ =
        .done (none, ⟨"max_nodes_exceeded", 5, 7, 0, some 3, none, none⟩) :=
  ⟨⟨by decide, by decide, by decide⟩,
    C7_node_limit.1 ⟨10, true, 2⟩ (fun _ => 0) ⟨[⟨0, 0, 0, 0, 0⟩], [], [], 5, 7, 0, 3, 0⟩
      (by decide) (by decide) (by decide)⟩

/-! ### C8: expanded never exceeds generated -/

/-- The counting invariant of the search loop: every expansion pops an entry
that was pushed and counted in `nodes_generated`. -/
def genInv (ls : SearchState) : Prop :=
  ls.nodes_expanded + ls.open_set.length ≤ ls.nodes_generated

theorem pushSuccessor_genInv {cfg : Config} {orig g : Nat} {ls : SearchState}
    (h : genInv ls) (m : Move) : genInv (pushSuccessor cfg orig g ls m) := by
  by_cases hcond : ((g + 1 : Nat) : ℕ∞) < gLookup ls.g_score
      (if cfg.use_symmetry then canonicalize (apply_move_fast orig m)
        else apply_move_fast orig m)
  · push_cast at hcond
    unfold genInv pushSuccessor
    simp only [Nat.cast_add, Nat.cast_one]
    rw [if_pos hcond]
    unfold genInv at h
    simp only [List.length_cons]
    omega
  · push_cast at hcond
    unfold genInv pushSuccessor
    simp only [Nat.cast_add, Nat.cast_one]
    rw [if_neg hcond]
    exact h

theorem foldl_push_genInv {cfg : Config} {orig g : Nat} :
    ∀ (l : List Move) (ls : SearchState), genInv ls →
      genInv (l.foldl (pushSuccessor cfg orig g) ls) := by
  intro l
  induction l with
  | nil => intro ls h; exact h
  | cons m t ih => intro ls h; exact ih _ (pushSuccessor_genInv h m)

theorem popMin_eq_none : ∀ {l : List Entry}, popMin l = none → l = [] := by
  intro l h
  cases l with
  | nil => rfl
  | cons e es =>
    exfalso
    cases hp : popMin es with
    | none => simp [popMin, hp] at h
    | some p =>
      obtain ⟨m, rest⟩ := p
      simp only [popMin, hp] at h
      split at h <;> simp at h

theorem popMin_perm : ∀ {l : List Entry} {e : Entry} {rest : List Entry},
    popMin l = some (e, rest) → l.Perm (e :: rest) := by
  intro l
  induction l with
  | nil => intro e rest h; simp [popMin] at h
  | cons a t ih =>
    intro e rest h
    cases hp : popMin t with
    | none =>
      have ht : t = [] := popMin_eq_none hp
      subst ht
      simp only [popMin, Option.some.injEq, Prod.mk.injEq] at h
      obtain ⟨rfl, rfl⟩ := h
      exact List.Perm.refl _
    | some p =>
      obtain ⟨m, rest'⟩ := p
      simp only [popMin, hp] at h
      split at h
      · simp only [Option.some.injEq, Prod.mk.injEq] at h
        obtain ⟨rfl, rfl⟩ := h
        exact List.Perm.refl _
      · simp only [Option.some.injEq, Prod.mk.injEq] at h
        obtain ⟨rfl, rfl⟩ := h
        exact (List.Perm.cons a (ih hp)).trans (List.Perm.swap m a rest')

/-- What one loop iteration guarantees: a returned record keeps
`expanded ≤ generated`, a continued state keeps the counting invariant. -/
def stepOk : StepRes → Prop
  | .done r => r.2.expanded ≤ r.2.generated
  | .cont ls' => genInv ls'

theorem astarStep_genInv {cfg : Config} {ora : Nat → Nat} {ls : SearchState}
    (h : genInv ls) : stepOk (astarStep cfg ora ls) := by
  unfold genInv at h
  unfold astarStep
  split
  · show ls.nodes_expanded ≤ ls.nodes_generated
    omega
  · split
    · show ls.nodes_expanded ≤ ls.nodes_generated
      omega
    · split
      · show ls.nodes_expanded ≤ ls.nodes_generated
        omega
      · split
        · show ls.nodes_expanded ≤ ls.nodes_generated
          omega
        · rename_i e rest hp
          have hlen : ls.open_set.length = rest.length + 1 := by
            rw [(popMin_perm hp).length_eq]
            rfl
          split
          · show genInv _
            unfold genInv
            simp only
            omega
          · split
            · show ls.nodes_expanded + 1 ≤ ls.nodes_generated
              omega
            · show genInv _
              have h1 : genInv { ls with
                  open_set := rest,
                  nodes_expanded := ls.nodes_expanded + 1,
                  best_pieces := if popcount e.orig < ls.best_pieces then popcount e.orig
                    else ls.best_pieces } := by
                unfold genInv
                simp only
                omega
              exact foldl_push_genInv _ _ h1

theorem astarRun_genInv {cfg : Config} {ora : Nat → Nat} :
    ∀ (fuel : Nat) (ls : SearchState), genInv ls →
      ∀ r, astarRun cfg ora fuel ls = some r → r.2.expanded ≤ r.2.generated := by
  intro fuel
  induction fuel with
  | zero =>
    intro ls _ r hr
    simp [astarRun] at hr
  | succ f ih =>
    intro ls h r hr
    have hstep := @astarStep_genInv cfg ora ls h
    cases hs : astarStep cfg ora ls with
    | done r' =>
      rw [hs] at hstep
      simp only [astarRun, hs, Option.some.injEq] at hr
      subst hr
      exact hstep
    | cont ls' =>
      rw [hs] at hstep
      simp only [astarRun, hs] at hr
      exact ih ls' hstep r hr

/-- C8: every statistics record returned by `astar_solve` satisfies
`nodes_expanded ≤ nodes_generated`; internally the loop maintains
`nodes_expanded + |open_set| ≤ nodes_generated`. -/
theorem C8_expanded_le_generated (cfg : Config) (ora : Nat → Nat) (fuel : Nat)
    (r : Option (List Move) × Stats) (h : astar_solve cfg ora fuel = some r) :
    r.2.expanded ≤ r.2.generated := by
  refine astarRun_genInv fuel (initSearch cfg) ?_ r h
  show 0 + 1 ≤ 1
  omega

theorem C8_expanded_le_generated_witness :
    astar_solve ⟨0, true, 0⟩ (fun _ => 1) 1 =
        some (none, ⟨"timeout", 0, 1, 1, some 32, none, none⟩) ∧
      ((none, (⟨"timeout", 0, 1, 1, some 32, none, none⟩ : Stats)) :
          Option (List Move) × Stats).2.expanded ≤
        ((none, (⟨"timeout", 0, 1, 1, some 32, none, none⟩ : Stats)) :
          Option (List Move) × Stats).2.generated :=
  ⟨by rfl, C8_expanded_le_generated ⟨0, true, 0⟩ (fun _ => 1) 1 _ (by rfl)⟩

/-! ### C1: provenance-map invariant -/

theorem lookupA_mem {α : Type} : ∀ {cf : List (Nat × α)} {k : Nat} {v : α},
    lookupA cf k = some v → (k, v) ∈ cf := by
  intro cf
  induction cf with
  | nil => intro k v h; simp [lookupA] at h
  | cons p t ih =>
    intro k v h
    obtain ⟨pk, pv⟩ := p
    simp only [lookupA] at h
    split at h
    · rename_i hbeq
      simp only [Option.some.injEq] at h
      subst h
      have hk : pk = k := by simpa using hbeq
      subst hk
      exact List.mem_cons_self _ _
    · exact List.mem_cons_of_mem _ (ih h)

theorem lookupA_cons_isSome {α : Type} {cf : List (Nat × α)} {x k : Nat} {v : α}
    (h : (lookupA cf x).isSome = true) :
    (lookupA ((k, v) :: cf) x).isSome = true := by
  simp only [lookupA]
  split
  · rfl
  · exact h

theorem lookupA_head_isSome {α : Type} (cf : List (Nat × α)) (k : Nat) (v : α) :
    (lookupA ((k, v) :: cf) k).isSome = true := by
  simp [lookupA]

/-- One provenance entry is sound: it records a legal move from its
predecessor, and the predecessor is the initial state or itself recorded. -/
def cfEntryOk (cf : List (Nat × (Nat × Option Move))) (ent : Nat × (Nat × Option Move)) :
    Prop :=
  ∃ m : Move, ent.2.2 = some m ∧ m ∈ get_valid_moves_fast ent.2.1 ∧
    apply_move_fast ent.2.1 m = ent.1 ∧ ent.2.1 < 2 ^ 33 ∧
    (ent.2.1 = initial_state ∨ (lookupA cf ent.2.1).isSome = true)

def cfOk (cf : List (Nat × (Nat × Option Move))) : Prop :=
  ∀ ent ∈ cf, cfEntryOk cf ent

/-- A concrete state reachable in the provenance structure: 33-bit, and either
the initial state or a recorded successor. -/
def originOk (cf : List (Nat × (Nat × Option Move))) (s : Nat) : Prop :=
  s < 2 ^ 33 ∧ (s = initial_state ∨ (lookupA cf s).isSome = true)

/-- The loop invariant backing path reconstruction. -/
def searchInv (ls : SearchState) : Prop :=
  cfOk ls.came_from ∧ ∀ e ∈ ls.open_set, originOk ls.came_from e.orig

theorem cfEntryOk_cons {cf : List (Nat × (Nat × Option Move))}
    {ent kv : Nat × (Nat × Option Move)} (h : cfEntryOk cf ent) :
    cfEntryOk (kv :: cf) ent := by
  obtain ⟨m, h1, h2, h3, h4, h5⟩ := h
  obtain ⟨k, v⟩ := kv
  refine ⟨m, h1, h2, h3, h4, ?_⟩
  rcases h5 with h5 | h5
  · exact Or.inl h5
  · exact Or.inr (lookupA_cons_isSome h5)

theorem originOk_cons {cf : List (Nat × (Nat × Option Move))}
    {kv : Nat × (Nat × Option Move)} {s : Nat} (h : originOk cf s) :
    originOk (kv :: cf) s := by
  obtain ⟨h1, h2⟩ := h
  obtain ⟨k, v⟩ := kv
  refine ⟨h1, ?_⟩
  rcases h2 with h2 | h2
  · exact Or.inl h2
  · exact Or.inr (lookupA_cons_isSome h2)

/-- `pushSuccessor` either leaves the state unchanged or conses the provenance
entry, the cost entry, and a frontier entry for the successor. -/
theorem pushSuccessor_shape (cfg : Config) (orig g : Nat) (ls : SearchState) (m : Move) :
    pushSuccessor cfg orig g ls m = ls ∨
    (∃ E : Entry, pushSuccessor cfg orig g ls m = { ls with
        came_from := (apply_move_fast orig m, (orig, some m)) :: ls.came_from,
        g_score := ((if cfg.use_symmetry then canonicalize (apply_move_fast orig m)
          else apply_move_fast orig m), g + 1) :: ls.g_score,
        tie_breaker := ls.tie_breaker + 1,
        open_set := E :: ls.open_set,
        nodes_generated := ls.nodes_generated + 1 } ∧
      E.orig = apply_move_fast orig m) := by
  by_cases hcond : ((g + 1 : Nat) : ℕ∞) < gLookup ls.g_score
      (if cfg.use_symmetry then canonicalize (apply_move_fast orig m)
        else apply_move_fast orig m)
  · right
    push_cast at hcond
    refine ⟨⟨(g : ℕ∞) + 1 + heuristic_advanced (apply_move_fast orig m),
      tie_value (popcount (apply_move_fast orig m))
        (heuristic_advanced (apply_move_fast orig m)) (ls.tie_breaker + 1),
      g + 1,
      (if cfg.use_symmetry then canonicalize (apply_move_fast orig m)
        else apply_move_fast orig m),
      apply_move_fast orig m⟩, ?_, rfl⟩
    simp only [pushSuccessor, Nat.cast_add, Nat.cast_one]
    rw [if_pos hcond]
  · left
    push_cast at hcond
    simp only [pushSuccessor, Nat.cast_add, Nat.cast_one]
    rw [if_neg hcond]

theorem pushSuccessor_inv {cfg : Config} {orig g : Nat} {ls : SearchState} {m : Move}
    (hm : m ∈ get_valid_moves_fast orig) (ho : originOk ls.came_from orig)
    (hcf : cfOk ls.came_from)
    (hopen : ∀ e ∈ ls.open_set, originOk ls.came_from e.orig) :
    (cfOk (pushSuccessor cfg orig g ls m).came_from ∧
      ∀ e ∈ (pushSuccessor cfg orig g ls m).open_set,
        originOk (pushSuccessor cfg orig g ls m).came_from e.orig) ∧
    originOk (pushSuccessor cfg orig g ls m).came_from orig := by
  rcases pushSuccessor_shape cfg orig g ls m with heq | ⟨E, heq, hE⟩
  · rw [heq]
    exact ⟨⟨hcf, hopen⟩, ho⟩
  · rw [heq]
    have hneigh : apply_move_fast orig m < 2 ^ 33 :=
      apply_move_lt ho.1 (by omega) (mem_get_valid_moves hm).1
    refine ⟨⟨?_, ?_⟩, originOk_cons ho⟩
    · intro ent hent
      rcases List.mem_cons.mp hent with hh | hh
      · subst hh
        exact ⟨m, rfl, hm, rfl, ho.1, (originOk_cons ho).2⟩
      · exact cfEntryOk_cons (hcf ent hh)
    · intro e he
      rcases List.mem_cons.mp he with hh | hh
      · subst hh
        refine ⟨by rw [hE]; exact hneigh, Or.inr ?_⟩
        rw [hE]
        exact lookupA_head_isSome _ _ _
      · exact originOk_cons (hopen e hh)

theorem foldl_push_inv {cfg : Config} {orig g : Nat} :
    ∀ (l : List Move) (ls : SearchState),
      (∀ m ∈ l, m ∈ get_valid_moves_fast orig) →
      originOk ls.came_from orig →
      cfOk ls.came_from →
      (∀ e ∈ ls.open_set, originOk ls.came_from e.orig) →
      cfOk (l.foldl (pushSuccessor cfg orig g) ls).came_from ∧
        ∀ e ∈ (l.foldl (pushSuccessor cfg orig g) ls).open_set,
          originOk (l.foldl (pushSuccessor cfg orig g) ls).came_from e.orig := by
  intro l
  induction l with
  | nil => intro ls _ _ hcf hopen; exact ⟨hcf, hopen⟩
  | cons m t ih =>
    intro ls hl ho hcf hopen
    have hstep := @pushSuccessor_inv cfg orig g ls m
      (hl m (List.mem_cons_self m t)) ho hcf hopen
    exact ih _ (fun m' hm' => hl m' (List.mem_cons_of_mem m hm'))
      hstep.2 hstep.1.1 hstep.1.2

/-! ### C1: path reconstruction replays to the popped goal state -/

theorem runPath_append : ∀ (l : List Move) (s : Nat) (m : Move),
    runPath s (l ++ [m]) =
      match runPath s l with
      | some t => if m ∈ get_valid_moves_fast t then some (apply_move_fast t m) else none
      | none => none := by
  intro l
  induction l with
  | nil =>
    intro s m
    rfl
  | cons a t ih =>
    intro s m
    show (if a ∈ get_valid_moves_fast s then
        runPath (apply_move_fast s a) (t ++ [m]) else none) = _
    by_cases ha : a ∈ get_valid_moves_fast s
    · rw [if_pos ha, ih]
      have hr : runPath s (a :: t) = runPath (apply_move_fast s a) t := by
        show (if a ∈ get_valid_moves_fast s then runPath (apply_move_fast s a) t
          else none) = _
        rw [if_pos ha]
      rw [hr]
    · rw [if_neg ha]
      have hr : runPath s (a :: t) = none := by
        show (if a ∈ get_valid_moves_fast s then runPath (apply_move_fast s a) t
          else none) = none
        rw [if_neg ha]
      rw [hr]

theorem reconstruct_runPath {cf : List (Nat × (Nat × Option Move))} (hcf : cfOk cf) :
    ∀ (fuel cur : Nat), cur < 2 ^ 33 →
      (cur = initial_state ∨ (lookupA cf cur).isSome = true) →
      33 ≤ fuel + popcount cur →
      runPath initial_state (reconstruct fuel cf cur) = some cur := by
  intro fuel
  induction fuel with
  | zero =>
    intro cur hlt hdisj hfuel
    exfalso
    rcases hdisj with rfl | hsome
    · have h32 : popcount initial_state = 32 := by decide
      omega
    · obtain ⟨v, hv⟩ := Option.isSome_iff_exists.mp hsome
      obtain ⟨p, mv⟩ := v
      obtain ⟨m, hmv, hm, happ, hp33, _⟩ := hcf _ (lookupA_mem hv)
      have happ' : apply_move_fast p m = cur := happ
      have hm' : m ∈ get_valid_moves_fast p := hm
      have hp33' : p < 2 ^ 33 := hp33
      have hpc : popcount cur = popcount p - 1 := by
        rw [← happ']
        exact popcount_apply_move hm'
      have hple : popcount p ≤ 33 := popcount_le hp33'
      omega
  | succ f ih =>
    intro cur hlt hdisj hfuel
    simp only [reconstruct]
    cases hv : lookupA cf cur with
    | none =>
      rcases hdisj with rfl | hsome
      · simp [runPath]
      · rw [hv] at hsome
        exact absurd hsome (by simp)
    | some pm =>
      obtain ⟨p, mv⟩ := pm
      obtain ⟨m, hmv, hm, happ, hp33, hpdisj⟩ := hcf _ (lookupA_mem hv)
      have hmv' : mv = some m := hmv
      subst hmv'
      have happ' : apply_move_fast p m = cur := happ
      have hm' : m ∈ get_valid_moves_fast p := hm
      have hp33' : p < 2 ^ 33 := hp33
      have hpdisj' : p = initial_state ∨ (lookupA cf p).isSome = true := hpdisj
      have hpc : popcount p = popcount cur + 1 := by
        have h1 : popcount cur = popcount p - 1 := by
          rw [← happ']
          exact popcount_apply_move hm'
        have h2 : 0 < popcount p := by
          refine popcount_pos fun h0 => ?_
          have hb := (mem_get_valid_moves hm').2.1
          rw [h0, Nat.zero_testBit] at hb
          exact absurd hb (by simp)
        omega
      have hrec := ih p hp33' hpdisj' (by omega)
      rw [runPath_append, hrec]
      show (if m ∈ get_valid_moves_fast p then some (apply_move_fast p m) else none) =
        some cur
      rw [if_pos hm', happ']

/-! ### C1: the step and run level -/

/-- What one loop iteration guarantees toward C1: a success return carries a
replayable path of the reported length; a continued state keeps the
provenance invariant. -/
def stepInv : StepRes → Prop
  | .done r =>
      ∀ path, r.1 = some path →
        (∃ fin, runPath initial_state path = some fin ∧ is_goal fin = true) ∧
          r.2.moves = some path.length ∧ r.2.status = "success"
  | .cont ls' => searchInv ls'

theorem astarStep_searchInv {cfg : Config} {ora : Nat → Nat} {ls : SearchState}
    (h : searchInv ls) : stepInv (astarStep cfg ora ls) := by
  obtain ⟨hcf, hopen⟩ := h
  unfold astarStep
  split
  · intro path hp
    exact absurd hp (by simp)
  · split
    · intro path hp
      exact absurd hp (by simp)
    · split
      · intro path hp
        exact absurd hp (by simp)
      · split
        · intro path hp
          exact absurd hp (by simp)
        · rename_i e rest hp
          have hperm := popMin_perm hp
          have hemem : e ∈ ls.open_set := hperm.mem_iff.mpr (List.mem_cons_self e rest)
          have hrest : ∀ x ∈ rest, x ∈ ls.open_set := fun x hx =>
            hperm.mem_iff.mpr (List.mem_cons_of_mem e hx)
          split
          · exact ⟨hcf, fun x hx => hopen x (hrest x hx)⟩
          · split
            · rename_i hg
              intro path hpath
              simp only [Option.some.injEq] at hpath
              subst hpath
              have hgoal : popcount e.orig = 1 := by
                have : e.orig = 1 <<< CENTER_IDX := by simpa [is_goal] using hg
                rw [this]
                decide
              have ho := hopen e hemem
              refine ⟨⟨e.orig, ?_, hg⟩, rfl, rfl⟩
              exact reconstruct_runPath hcf 34 e.orig ho.1 ho.2 (by omega)
            · show searchInv _
              have ho := hopen e hemem
              have hfold := @foldl_push_inv cfg e.orig e.g
                (get_valid_moves_fast e.orig)
                { ls with
                  open_set := rest,
                  nodes_expanded := ls.nodes_expanded + 1,
                  best_pieces := if popcount e.orig < ls.best_pieces then popcount e.orig
                    else ls.best_pieces }
                (fun m hm => hm) ho hcf (fun x hx => hopen x (hrest x hx))
              exact ⟨hfold.1, hfold.2⟩

theorem astarRun_success {cfg : Config} {ora : Nat → Nat} :
    ∀ (fuel : Nat) (ls : SearchState), searchInv ls →
      ∀ (path : List Move) (st : Stats),
        astarRun cfg ora fuel ls = some (some path, st) →
        (∃ fin, runPath initial_state path = some fin ∧ is_goal fin = true) ∧
          st.moves = some path.length ∧ st.status = "success" := by
  intro fuel
  induction fuel with
  | zero =>
    intro ls _ path st hr
    simp [astarRun] at hr
  | succ f ih =>
    intro ls h path st hr
    have hstep := @astarStep_searchInv cfg ora ls h
    cases hs : astarStep cfg ora ls with
    | done r =>
      rw [hs] at hstep
      simp only [astarRun, hs, Option.some.injEq] at hr
      subst hr
      exact hstep path rfl
    | cont ls' =>
      rw [hs] at hstep
      simp only [astarRun, hs] at hr
      exact ih ls' hstep path st hr

/-- The C1 postcondition as a predicate of the run result: if the result is a
SUCCESS return `(some path, stats)`, the path replays legally from
`initial_state` to a state satisfying `is_goal`, and the reported `moves`
count is the length of the path. -/
def successSound (res : Option (Option (List Move) × Stats)) : Prop :=
  match res with
  | some (some path, st) =>
      (∃ fin, runPath initial_state path = some fin ∧ is_goal fin = true) ∧
        st.moves = some path.length ∧ st.status = "success"
  | _ => True

/-- C1: whenever `astar_solve` returns with status SUCCESS, the returned move
sequence, applied in order from `initial_state`, is legal at every step, ends
in a goal state, and its length is the reported path length. -/
theorem C1_success_sound (cfg : Config) (ora : Nat → Nat) (fuel : Nat) :
    successSound (astar_solve cfg ora fuel) := by
  have hinit : searchInv (initSearch cfg) := by
    constructor
    · intro ent hent
      simp [initSearch] at hent
    · intro e he
      have he' : e = ⟨heuristic_advanced initial_state, 0, 0,
          if cfg.use_symmetry then canonicalize initial_state else initial_state,
          initial_state⟩ := by
        simpa [initSearch] using he
      subst he'
      refine ⟨?_, Or.inl rfl⟩
      show initial_state < 2 ^ 33
      decide
  unfold successSound
  split
  · rename_i path st heq
    exact astarRun_success fuel (initSearch cfg) hinit path st heq
  · trivial

end PegAstar
